import Mathlib

/-!
# Vulpes browser: HTML-to-text extraction — verification development

A shallow embedding of the `libvulpes` boundary declared in `src/vulpes.h`
(error codes, lifecycle, `vulpes_extract_text`, `vulpes_version`) together
with the HTML-to-text extraction engine.  The header ships no implementation,
so the engine itself (Byte Reader / Lexer / Visibility Tracker / Entity
Decoder / Whitespace Normalizer per the design document §4.1–§4.6) is
modelled from the spec; each such definition says so in its doc comment.
Input bytes are modelled at the decoded-scalar level as `List Char`
(the spec's Byte/UTF-8 Reader turns bytes into Unicode scalars, §4.1).
-/

/- ============================ Error codes ============================ -/

/-- `VULPES_OK` from `vulpes.h` (`vulpes_error_t`). -/
def VULPES_OK : Nat := 0

/-- `VULPES_ERROR_NOT_INITIALIZED` from `vulpes.h`. -/
def VULPES_ERROR_NOT_INITIALIZED : Nat := 1

/-- `VULPES_ERROR_ALREADY_INITIALIZED` from `vulpes.h`. -/
def VULPES_ERROR_ALREADY_INITIALIZED : Nat := 2

/-- `VULPES_ERROR_INVALID_ARGUMENT` from `vulpes.h`. -/
def VULPES_ERROR_INVALID_ARGUMENT : Nat := 3

/-- `VULPES_ERROR_OUT_OF_MEMORY` from `vulpes.h`. -/
def VULPES_ERROR_OUT_OF_MEMORY : Nat := 4

/-- `VULPES_ERROR_NETWORK` from `vulpes.h`. -/
def VULPES_ERROR_NETWORK : Nat := 5

/-- `VULPES_ERROR_PARSE` from `vulpes.h`. -/
def VULPES_ERROR_PARSE : Nat := 6

/-- `VULPES_ERROR_UNKNOWN` from `vulpes.h`. -/
def VULPES_ERROR_UNKNOWN : Nat := 99

/- ============================ Lifecycle ============================ -/

/-- Modelled from the spec: §3 LibraryState, the process-wide singleton with
lifecycle UNINITIALIZED → INITIALIZED → UNINITIALIZED. -/
inductive LibraryState where
  | UNINITIALIZED
  | INITIALIZED
deriving DecidableEq

/-- Modelled from the spec: `vulpes_init` (§4.6 Lifecycle Manager):
transitions UNINITIALIZED→INITIALIZED, idempotent, repeated calls are
no-ops returning success.  Returns the new state and the error code. -/
def vulpes_init (_ : LibraryState) : LibraryState × Nat :=
  (LibraryState.INITIALIZED, VULPES_OK)

/-- Modelled from the spec: `vulpes_deinit` (§4.6): transitions back to
UNINITIALIZED. -/
def vulpes_deinit (_ : LibraryState) : LibraryState :=
  LibraryState.UNINITIALIZED

/-- Modelled from the spec: `vulpes_version` — per the header it may be called
before `vulpes_init`, so it ignores the library state; the returned string is
the library-owned version string, valid for the process lifetime. -/
def vulpes_version (_ : LibraryState) : String := "0.1.0-dev"

/-- Modelled from the spec: `vulpes_is_initialized` — 1 if initialized, 0
otherwise (header contract). -/
def vulpes_is_initialized (s : LibraryState) : Nat :=
  if s = LibraryState.INITIALIZED then 1 else 0

/- ===================== Character classification ===================== -/

/-- Tag- and entity-name characters: ASCII alphanumerics (§4.2). -/
def isNameChar (c : Char) : Bool := c.isAlpha || c.isDigit

/-- Hexadecimal digit. -/
def isHexDigit (c : Char) : Bool :=
  c.isDigit || ('a' ≤ c && c ≤ 'f') || ('A' ≤ c && c ≤ 'F')

/-- Modelled from the spec: the whitespace class collapsed by the Whitespace
Normalizer (§4.5 "any run of ASCII/Unicode whitespace"); includes the
non-breaking space, which the §8 scenario normalizes to a plain space. -/
def isWS (c : Char) : Bool :=
  c = ' ' || c = '\t' || c = '\n' || c = '\r' || c = '\u000B' || c = '\u000C' ||
  c = '\u00A0' || c = '\u2028' || c = '\u2029'

/-- ASCII case-fold of a tag name (§4.2: case-insensitive tag matching). -/
def foldName (cs : List Char) : String := String.mk (cs.map Char.toLower)

/-- Value of one hexadecimal digit. -/
def hexDigitVal (c : Char) : Nat :=
  if c.isDigit then c.toNat - 48
  else if 'a' ≤ c && c ≤ 'f' then c.toNat - 87
  else c.toNat - 55

/-- Value of a decimal digit string. -/
def decVal (ds : List Char) : Nat :=
  ds.foldl (fun a c => a * 10 + (c.toNat - 48)) 0

/-- Value of a hexadecimal digit string. -/
def hexVal (ds : List Char) : Nat :=
  ds.foldl (fun a c => a * 16 + hexDigitVal c) 0

/- ===================== Fixed element-name tables ===================== -/

/-- Modelled from the spec: §4.3 suppressed-element set (fixed). -/
def suppressedSet : List String :=
  ["script", "style", "head", "title", "noscript", "template"]

/-- Modelled from the spec: §4.3 block-level element set (fixed): p, div, br,
li, h1–h6, table row/cell variants, etc.; used only for separator insertion. -/
def blockSet : List String :=
  ["p", "div", "br", "li", "ul", "ol", "h1", "h2", "h3", "h4", "h5", "h6",
   "tr", "td", "th", "table", "thead", "tbody", "tfoot", "blockquote", "pre",
   "section", "article", "header", "footer", "nav", "aside", "form", "hr", "dl",
   "dt", "dd"]

/-- Modelled from the spec: void elements (§4.2, glossary): element types with
no closing tag; never pushed on the element stack. -/
def voidSet : List String :=
  ["br", "hr", "img", "input", "meta", "link", "area", "base", "col", "embed",
   "source", "track", "wbr"]

/-- VisibilityState (§3): SUPPRESSED iff any open element is in the
suppressed-element set. -/
def suppressed (stack : List String) : Bool :=
  stack.any (fun n => suppressedSet.contains n)

/- ============================== Tokens ============================== -/

/-- Modelled from the spec: §3 Token, the Lexer's event variants.  Text runs
are emitted one scalar at a time (`chr`), an equivalent factoring of the
spec's Text{raw byte slice} that feeds the same fragment stream to the
normalizer.  Character references keep their raw name / numeric value for the
Entity Decoder; the self-closing flag is not carried because the stack
semantics never pushes void elements (§4.2). -/
inductive Token where
  | chr (c : Char)
  | startTag (name : String)
  | endTag (name : String)
  | namedRef (name : String) (semi : Bool)
  | numRef (n : Nat)
  | comment
  | doctype
deriving DecidableEq

/- ========================= Lexer: skipping ========================= -/

/-- Skip past the terminating `-->` of a comment (or to end of input). -/
def skipComment : List Char → List Char
  | '-' :: '-' :: '>' :: r => r
  | [] => []
  | _ :: r => skipComment r

/-- Skip to just past the next `>` (or to end of input), with no quote
handling; used for doctype sections and unmatched-quote recovery. -/
def skipToGtSimple : List Char → List Char
  | [] => []
  | c :: r => if c = '>' then r else skipToGtSimple r

/-- Modelled from the spec: §4.2 — skip the remainder of a tag, one scalar at
a time.  The mode is `none` outside attribute quotes; inside quotes it is
`some (q, cand)` where `cand` records the remainder just past the first `>`
seen inside the open quote, so that an unmatched quote is recovered by ending
the tag at that `>` (the remainder of the tag is the attribute value up to the
next `>`); unterminated tags are closed at end of input. -/
def skipTagAux : Option (Char × Option (List Char)) → List Char → List Char
  | none, [] => []
  | none, c :: r =>
      if c = '>' then r
      else if c = '"' || c = '\'' then skipTagAux (some (c, none)) r
      else skipTagAux none r
  | some (_, cand), [] => cand.getD []
  | some (q, cand), c :: r =>
      if c = q then skipTagAux none r
      else if c = '>' && cand.isNone then skipTagAux (some (q, some r)) r
      else skipTagAux (some (q, cand)) r

/-- Skip the remainder of a tag after its name (quote-aware). -/
def skipToGt : List Char → List Char := skipTagAux none

/-- Drop one leading `;` if present (optional reference terminator). -/
def dropSemi (l : List Char) : List Char :=
  if l.head? = some ';' then l.tail else l

/- ========================= Lexer: one step ========================= -/

/-- Modelled from the spec: §4.2 markup declarations and tags.  `tagStep rest`
consumes what follows a `<` and yields the produced tokens plus the remaining
input.  Comments and doctype/CDATA sections are tokenized and discarded;
malformed tag names make the `<` an opaque text scalar. -/
def tagStep (rest : List Char) : List Token × List Char :=
  match rest with
  | [] => ([Token.chr '<'], [])
  | c :: r =>
    if c = '!' then
      if r.take 2 = ['-', '-'] then ([Token.comment], skipComment (r.drop 2))
      else ([Token.doctype], skipToGtSimple r)
    else if c = '/' then
      if r.takeWhile isNameChar = [] then ([Token.chr '<'], rest)
      else ([Token.endTag (foldName (r.takeWhile isNameChar))],
            skipToGt (r.dropWhile isNameChar))
    else if c.isAlpha then
      ([Token.startTag (foldName (rest.takeWhile isNameChar))],
       skipToGt (rest.dropWhile isNameChar))
    else ([Token.chr '<'], rest)

/-- Modelled from the spec: §4.4 character-reference scanning.  `refStep rest`
consumes what follows a `&`: numeric (`&#NNN;`, `&#xHHH;`, terminator
optional) or named (raw name captured for the Entity Decoder, with a flag for
the presence of `;`); a `&` that opens no reference stays literal text. -/
def refStep (rest : List Char) : List Token × List Char :=
  match rest with
  | [] => ([Token.chr '&'], [])
  | c :: r =>
    if c = '#' then
      match r with
      | [] => ([Token.chr '&', Token.chr '#'], [])
      | x :: r2 =>
        if x = 'x' || x = 'X' then
          if r2.takeWhile isHexDigit = [] then
            ([Token.chr '&', Token.chr '#', Token.chr x], r2)
          else
            ([Token.numRef (hexVal (r2.takeWhile isHexDigit))],
             dropSemi (r2.dropWhile isHexDigit))
        else
          if r.takeWhile Char.isDigit = [] then ([Token.chr '&', Token.chr '#'], r)
          else
            ([Token.numRef (decVal (r.takeWhile Char.isDigit))],
             dropSemi (r.dropWhile Char.isDigit))
    else
      if rest.takeWhile isNameChar = [] then ([Token.chr '&'], rest)
      else
        if (rest.dropWhile isNameChar).head? = some ';' then
          ([Token.namedRef (String.mk (rest.takeWhile isNameChar)) true],
           (rest.dropWhile isNameChar).tail)
        else
          ([Token.namedRef (String.mk (rest.takeWhile isNameChar)) false],
           rest.dropWhile isNameChar)

/- ========================== Lexer: driver ========================== -/

/-- Fuelled lexer loop: each step consumes at least one input scalar, so fuel
`cs.length` suffices (see `tokenizeF_irrel`).  Structural recursion keeps the
definition kernel-reducible. -/
def tokenizeF : Nat → List Char → List Token
  | 0, _ => []
  | _ + 1, [] => []
  | fuel + 1, c :: rest =>
    if c = '<' then (tagStep rest).1 ++ tokenizeF fuel (tagStep rest).2
    else if c = '&' then (refStep rest).1 ++ tokenizeF fuel (refStep rest).2
    else Token.chr c :: tokenizeF fuel rest

/-- Modelled from the spec: §4.2 Lexer — the scalar stream becomes a finite
forward-only token sequence with tag-soup recovery. -/
def tokenize (cs : List Char) : List Token := tokenizeF cs.length cs

/- ========================= Entity Decoder ========================= -/

/-- Modelled from the spec: §4.4 — fixed table of standard HTML named
entities (a documented subset per §9's open question; includes the legacy
HTML4 names eligible for semicolon-less matching). -/
def namedEntities : List (String × Char) :=
  [("amp", '&'), ("lt", '<'), ("gt", '>'), ("quot", '"'), ("apos", '\''),
   ("nbsp", ' '), ("copy", '©'), ("reg", '®'), ("deg", '°'),
   ("middot", '·'), ("laquo", '«'), ("raquo", '»'),
   ("sect", '§'), ("para", '¶'), ("cent", '¢'),
   ("pound", '£'), ("yen", '¥'), ("euro", '€'),
   ("times", '×'), ("divide", '÷'), ("ndash", '–'),
   ("mdash", '—'), ("lsquo", '‘'), ("rsquo", '’'),
   ("ldquo", '“'), ("rdquo", '”'), ("hellip", '…'),
   ("bull", '•'), ("trade", '™')]

/-- Table lookup for a named character reference. -/
def lookupEntity (nm : String) : Option Char := namedEntities.lookup nm

/-- Longest-valid-prefix lookup, trying prefixes of length `i` downward;
implements the legacy rule for references missing their `;` (§4.4). -/
def lpmFrom : Nat → List Char → Option (Char × List Char)
  | 0, _ => none
  | i + 1, cs =>
    match lookupEntity (String.mk (cs.take (i + 1))) with
    | some c => some (c, cs.drop (i + 1))
    | none => lpmFrom i cs

/-- Longest valid prefix match over the entity table (§4.4 legacy rule). -/
def lpm (cs : List Char) : Option (Char × List Char) := lpmFrom cs.length cs

/-- Modelled from the spec: §4.4 — numeric references decode via code-point
lookup, clamping invalid or out-of-range code points to the replacement
character U+FFFD. -/
def refChar (n : Nat) : Char :=
  if n ≠ 0 && (decide (n < 0xD800) || (decide (0xDFFF < n) && decide (n < 0x110000)))
  then Char.ofNat n else '�'

/-- Modelled from the spec: §4.4 Entity Decoder for named references.  With a
terminating `;`: table hit decodes, unknown names pass through as literal text
including the ampersand (never dropped).  Without `;`: longest valid prefix
decodes and the remainder stays literal; no match leaves everything literal. -/
def decodeRef (nm : String) (semi : Bool) : List Char :=
  if semi then
    match lookupEntity nm with
    | some c => [c]
    | none => '&' :: (nm.data ++ [';'])
  else
    match lpm nm.data with
    | some (c, rem) => c :: rem
    | none => '&' :: nm.data

/- ============== Element Visibility Tracker and emission ============== -/

/-- A fragment handed to the Whitespace Normalizer: a decoded visible scalar,
or a block-element boundary separator (§4.5). -/
inductive Item where
  | chr (c : Char)
  | sep
deriving DecidableEq

/-- Pop the element stack until just past `name`; a stray end tag with no
match on the stack is ignored (§3 ElementStack recovery). -/
def dropUntilAfter (nm : String) : List String → List String
  | [] => []
  | s :: r => if s = nm then r else dropUntilAfter nm r

/-- ElementStack recovery on an end tag (§3): pop until match found, or
ignore the stray end tag if no match exists on the stack. -/
def popTo (nm : String) (stack : List String) : List String :=
  if stack.contains nm then dropUntilAfter nm stack else stack

/-- ElementStack push on a start tag (§3); void elements are never pushed
(§4.2: self-closing syntax recognized for void elements, no end tag). -/
def pushTag (nm : String) (stack : List String) : List String :=
  if voidSet.contains nm then stack else nm :: stack

/-- Modelled from the spec: §4.3 + §4.5 — consume the token stream with the
element stack, keeping only fragments from VISIBLE context; start/end of a
block-level element emits a separator; comments and doctypes are discarded;
void elements are never pushed. -/
def emit : List Token → List String → List Item
  | [], _ => []
  | Token.chr c :: ts, stack =>
      (if suppressed stack then [] else [Item.chr c]) ++ emit ts stack
  | Token.numRef n :: ts, stack =>
      (if suppressed stack then [] else [Item.chr (refChar n)]) ++ emit ts stack
  | Token.namedRef nm semi :: ts, stack =>
      (if suppressed stack then [] else (decodeRef nm semi).map Item.chr) ++
        emit ts stack
  | Token.comment :: ts, stack => emit ts stack
  | Token.doctype :: ts, stack => emit ts stack
  | Token.startTag nm :: ts, stack =>
      (if blockSet.contains nm && !suppressed (pushTag nm stack)
       then [Item.sep] else []) ++ emit ts (pushTag nm stack)
  | Token.endTag nm :: ts, stack =>
      (if blockSet.contains nm && !suppressed (popTo nm stack)
       then [Item.sep] else []) ++ emit ts (popTo nm stack)

/- ======================= Whitespace Normalizer ======================= -/

/-- Normalizer state (§4.5): `lead` before the first visible scalar (leading
whitespace and separators are trimmed); `word` directly after a visible
scalar; `space` with a collapsed whitespace run pending; `brk` with a
block-boundary line break pending (absorbing whitespace and further
separators). -/
inductive Pending where
  | lead
  | word
  | space
  | brk
deriving DecidableEq

/-- The character a pending state flushes before the next visible scalar. -/
def flushP : Pending → List Char
  | Pending.space => [' ']
  | Pending.brk => ['\n']
  | _ => []

/-- Modelled from the spec: §4.5 Whitespace Normalizer — whitespace runs
collapse to one space, block boundaries force exactly one line break
(collapsing adjacent separators), nothing is emitted before the first or
after the last visible scalar. -/
def normAux : List Item → Pending → List Char
  | [], _ => []
  | Item.sep :: ts, p =>
      normAux ts (if p = Pending.lead then Pending.lead else Pending.brk)
  | Item.chr c :: ts, p =>
      if isWS c then
        normAux ts (if p = Pending.lead then Pending.lead
                    else if p = Pending.brk then Pending.brk else Pending.space)
      else flushP p ++ c :: normAux ts Pending.word

/- ====================== Extraction entry point ====================== -/

/-- Modelled from the spec: §2 data flow — scalars to tokens to visible
fragments to normalized text. -/
def extractText (html : List Char) : List Char :=
  normAux (emit (tokenize html) []) Pending.lead

/-- `vulpes_text_result` from `vulpes.h`: extracted text (absent on error),
its length, and the error code.  `text = none` models a null `text` field. -/
structure vulpes_text_result where
  text : Option (List Char)
  text_len : Nat
  error_code : Nat
deriving DecidableEq

/-- Modelled from the spec: `vulpes_extract_text` (§6, §7) — fails with
NOT_INITIALIZED outside the INITIALIZED state; empty input yields an empty
success; a null pointer with nonzero length is INVALID_ARGUMENT with no
partial result; otherwise extraction always succeeds with error code OK
(malformed markup is recovered, §7(c)).  The buffer argument is `none` for a
null pointer; the engine reads the first `html_len` scalars. -/
def vulpes_extract_text (st : LibraryState) (html : Option (List Char))
    (html_len : Nat) : vulpes_text_result :=
  if st ≠ LibraryState.INITIALIZED then
    ⟨none, 0, VULPES_ERROR_NOT_INITIALIZED⟩
  else if html_len = 0 then ⟨some [], 0, VULPES_OK⟩
  else
    match html with
    | none => ⟨none, 0, VULPES_ERROR_INVALID_ARGUMENT⟩
    | some buf =>
        ⟨some (extractText (buf.take html_len)),
         (extractText (buf.take html_len)).length, VULPES_OK⟩

/- ================= Output predicates (whitespace law) ================= -/

/-- `noTwoSpaces l`: no two consecutive space characters occur in `l`. -/
def noTwoSpaces : List Char → Bool
  | a :: b :: r => !(a = ' ' && b = ' ') && noTwoSpaces (b :: r)
  | _ => true

/-- `wsChain l`: no two consecutive whitespace characters occur in `l`. -/
def wsChain : List Char → Bool
  | a :: b :: r => !(isWS a && isWS b) && wsChain (b :: r)
  | _ => true

/-- `lastOK l`: `l` does not end with a whitespace character. -/
def lastOK : List Char → Bool
  | [] => true
  | [c] => !isWS c
  | _ :: r => lastOK r

/- ============= Well-formed documents (generative grammar) ============= -/

/-- A well-formed HTML document fragment: text runs, named character
references, and properly nested, properly closed elements.  `C1`'s
"well-formed HTML input" is formalized as the rendering of a forest of these
nodes satisfying `wfF`. -/
inductive Node where
  | text (s : List Char)
  | ref (name : String)
  | elem (name : String) (children : List Node)

/-- A text-run character that needs no markup interpretation. -/
def goodTextChar (c : Char) : Bool := c ≠ '<' && c ≠ '>' && c ≠ '&'

/-- A tag-name character after the first: lowercase letter or digit. -/
def goodNameChar (c : Char) : Bool := c.isLower || c.isDigit

/-- A well-formed (already lowercase) tag name. -/
def wfName (nm : String) : Bool :=
  match nm.data with
  | [] => false
  | c :: cs => c.isLower && cs.all goodNameChar

/-- Serialize a forest back to HTML source text. -/
def renderF : List Node → List Char
  | [] => []
  | Node.text s :: r => s ++ renderF r
  | Node.ref nm :: r => '&' :: (nm.data ++ (';' :: renderF r))
  | Node.elem nm cs :: r =>
      '<' :: (nm.data ++ ('>' :: (renderF cs ++
        ('<' :: '/' :: (nm.data ++ ('>' :: renderF r))))))

/-- Well-formedness of a forest: text has no markup characters, reference
names are nonempty alphanumeric, element names are well-formed non-void
names with well-formed children. -/
def wfF : List Node → Bool
  | [] => true
  | Node.text s :: r => s.all goodTextChar && wfF r
  | Node.ref nm :: r =>
      !nm.data.isEmpty && nm.data.all isNameChar && wfF r
  | Node.elem nm cs :: r =>
      wfName nm && !voidSet.contains nm && wfF cs && wfF r

/-- The token sequence the Lexer produces for a well-formed forest. -/
def tokensF : List Node → List Token
  | [] => []
  | Node.text s :: r => s.map Token.chr ++ tokensF r
  | Node.ref nm :: r => Token.namedRef nm true :: tokensF r
  | Node.elem nm cs :: r =>
      Token.startTag nm :: (tokensF cs ++ (Token.endTag nm :: tokensF r))

/-- The fragment stream a well-formed forest contributes under an ambient
element stack: the reference semantics of the Visibility Tracker on
well-nested markup. -/
def itemsF (stack : List String) : List Node → List Item
  | [] => []
  | Node.text s :: r =>
      (if suppressed stack then [] else s.map Item.chr) ++ itemsF stack r
  | Node.ref nm :: r =>
      (if suppressed stack then [] else (decodeRef nm true).map Item.chr) ++
        itemsF stack r
  | Node.elem nm cs :: r =>
      (if blockSet.contains nm && !suppressed (nm :: stack)
       then [Item.sep] else []) ++
      (itemsF (nm :: stack) cs ++
        ((if blockSet.contains nm && !suppressed stack
          then [Item.sep] else []) ++ itemsF stack r))

/-- Replace the contents of every suppressed element by nothing. -/
def pruneF : List Node → List Node
  | [] => []
  | Node.text s :: r => Node.text s :: pruneF r
  | Node.ref nm :: r => Node.ref nm :: pruneF r
  | Node.elem nm cs :: r =>
      Node.elem nm (if suppressedSet.contains nm then [] else pruneF cs) ::
        pruneF r

/-- A reference whose decoding introduces no `<` or `>` character. -/
def refOK (nm : String) : Bool :=
  (decodeRef nm true).all (fun c => c ≠ '<' && c ≠ '>')

/-- No reference anywhere in the forest decodes to `<` or `>`. -/
def noAngleRefs : List Node → Bool
  | [] => true
  | Node.text _ :: r => noAngleRefs r
  | Node.ref nm :: r => refOK nm && noAngleRefs r
  | Node.elem _ cs :: r => noAngleRefs cs && noAngleRefs r

/- ======================== Supporting lemmas ======================== -/

theorem skipComment_le (l : List Char) : (skipComment l).length ≤ l.length := by
  induction l using skipComment.induct <;> simp [skipComment] <;> omega

theorem skipToGtSimple_le (l : List Char) :
    (skipToGtSimple l).length ≤ l.length := by
  induction l with
  | nil => simp [skipToGtSimple]
  | cons c r ih =>
    by_cases h : c = '>'
    · simp [skipToGtSimple, h]
    · simp only [skipToGtSimple, h, if_false]
      exact le_trans ih (by simp)

theorem skipTagAux_le (l : List Char) :
    ∀ m : Option (Char × Option (List Char)),
      (skipTagAux m l).length ≤
        max l.length
          (match m with | some (_, some r) => r.length | _ => 0) := by
  induction l with
  | nil =>
    intro m
    match m with
    | none => simp [skipTagAux]
    | some (q, none) => simp [skipTagAux]
    | some (q, some r) => simp [skipTagAux]
  | cons c r ih =>
    intro m
    match m with
    | none =>
      simp only [skipTagAux]
      split
      · simp
      · split
        · have := ih (some (c, none))
          simp only [] at this ⊢
          simp at this ⊢
          omega
        · have := ih none
          simp at this ⊢
          omega
    | some (q, cand) =>
      simp only [skipTagAux]
      split
      · have := ih none
        simp at this ⊢
        match cand with
        | none => simp; omega
        | some x => simp; omega
      · split
        · next hgt =>
          have := ih (some (q, some r))
          simp at this ⊢
          have hc : cand = none := by
            simp only [Bool.and_eq_true, Option.isNone_iff_eq_none] at hgt
            exact hgt.2
          subst hc
          simp
          omega
        · have := ih (some (q, cand))
          match cand with
          | none => simp at this ⊢; omega
          | some x => simp at this ⊢; omega

theorem skipToGt_le (l : List Char) : (skipToGt l).length ≤ l.length := by
  have := skipTagAux_le l none
  simpa [skipToGt] using this

theorem dropSemi_le (l : List Char) : (dropSemi l).length ≤ l.length := by
  by_cases h : l.head? = some ';'
  · simp only [dropSemi, h, if_true]
    cases l <;> simp
  · simp [dropSemi, h]

theorem dropWhile_le (p : Char → Bool) (l : List Char) :
    (l.dropWhile p).length ≤ l.length := by
  induction l with
  | nil => simp
  | cons c r ih =>
    by_cases h : p c
    · simp only [List.dropWhile_cons, h, if_true]
      exact le_trans ih (by simp)
    · simp [List.dropWhile_cons, h]

theorem tagStep_le (rest : List Char) :
    (tagStep rest).2.length ≤ rest.length := by
  unfold tagStep
  split
  · simp
  next c r =>
    split
    · split
      · have h1 := skipComment_le (r.drop 2)
        have h2 : (List.drop 2 r).length ≤ r.length := by simp
        simp only [List.length_cons]
        omega
      · have h1 := skipToGtSimple_le r
        simp only [List.length_cons]
        omega
    · split
      · split
        · simp
        · have h1 := skipToGt_le (r.dropWhile isNameChar)
          have h2 := dropWhile_le isNameChar r
          simp only [List.length_cons]
          omega
      · split
        · have h1 := skipToGt_le ((c :: r).dropWhile isNameChar)
          have h2 := dropWhile_le isNameChar (c :: r)
          simp only [List.length_cons] at h2 ⊢
          omega
        · simp

theorem refStep_le (rest : List Char) :
    (refStep rest).2.length ≤ rest.length := by
  unfold refStep
  split
  · simp
  next c r =>
    split
    · split
      · simp
      next x r2 =>
        split
        · split
          · simp only [List.length_cons]
            omega
          · have h1 := dropSemi_le (r2.dropWhile isHexDigit)
            have h2 := dropWhile_le isHexDigit r2
            simp only [List.length_cons]
            omega
        · split
          · simp
          · have h1 := dropSemi_le ((x :: r2).dropWhile Char.isDigit)
            have h2 := dropWhile_le Char.isDigit (x :: r2)
            simp only [List.length_cons] at h2 ⊢
            omega
    · split
      · simp
      · split
        · have h1 := dropWhile_le isNameChar (c :: r)
          have h2 : ((c :: r).dropWhile isNameChar).tail.length ≤
              ((c :: r).dropWhile isNameChar).length := by
            cases (c :: r).dropWhile isNameChar <;> simp
          simp only [List.length_cons] at h1 ⊢
          omega
        · have h1 := dropWhile_le isNameChar (c :: r)
          simp only [List.length_cons] at h1 ⊢
          omega

theorem tokenizeF_nil (fuel : Nat) : tokenizeF fuel [] = [] := by
  cases fuel <;> simp [tokenizeF]

theorem tokenizeF_irrel (f1 : Nat) :
    ∀ (f2 : Nat) (cs : List Char), cs.length ≤ f1 → cs.length ≤ f2 →
      tokenizeF f1 cs = tokenizeF f2 cs := by
  induction f1 with
  | zero =>
    intro f2 cs h1 _
    have : cs = [] := by
      cases cs with
      | nil => rfl
      | cons c r => simp at h1
    subst this
    simp [tokenizeF_nil]
  | succ g ih =>
    intro f2 cs h1 h2
    match cs with
    | [] => simp [tokenizeF_nil]
    | c :: rest =>
      match f2 with
      | 0 => simp at h2
      | g2 + 1 =>
        simp only [tokenizeF]
        simp only [List.length_cons] at h1 h2
        by_cases hc : c = '<'
        · have hl := tagStep_le rest
          simp only [hc, if_pos rfl]
          rw [ih g2 (tagStep rest).2 (by omega) (by omega)]
          simp
        · by_cases ha : c = '&'
          · have hl := refStep_le rest
            subst ha
            rw [ih g2 (refStep rest).2 (by omega) (by omega)]
            simp
          · simp only [hc, ha, if_false]
            rw [ih g2 rest (by omega) (by omega)]

theorem tokenize_nil : tokenize [] = [] := rfl

theorem tokenize_lt (rest : List Char) :
    tokenize ('<' :: rest) =
      (tagStep rest).1 ++ tokenize (tagStep rest).2 := by
  have hl := tagStep_le rest
  simp only [tokenize, List.length_cons, tokenizeF, if_pos rfl]
  rw [tokenizeF_irrel rest.length (tagStep rest).2.length (tagStep rest).2
        hl (le_refl _)]
  simp

theorem tokenize_amp (rest : List Char) :
    tokenize ('&' :: rest) =
      (refStep rest).1 ++ tokenize (refStep rest).2 := by
  have hl := refStep_le rest
  have hne : ('&' : Char) ≠ '<' := by decide
  simp only [tokenize, List.length_cons, tokenizeF, hne, if_false, if_pos rfl]
  rw [tokenizeF_irrel rest.length (refStep rest).2.length (refStep rest).2
        hl (le_refl _)]
  simp

theorem tokenize_chr (c : Char) (rest : List Char) (h1 : c ≠ '<')
    (h2 : c ≠ '&') :
    tokenize (c :: rest) = Token.chr c :: tokenize rest := by
  simp only [tokenize, List.length_cons, tokenizeF, h1, h2, if_false]

theorem tokenize_chrs (l : List Char) (rest : List Char)
    (h : ∀ c ∈ l, c ≠ '<' ∧ c ≠ '&') :
    tokenize (l ++ rest) = l.map Token.chr ++ tokenize rest := by
  induction l with
  | nil => simp
  | cons c r ih =>
    have hc := h c (by simp)
    rw [List.cons_append, tokenize_chr c (r ++ rest) hc.1 hc.2,
        ih (fun d hd => h d (by simp [hd]))]
    simp

/- ================== Lifecycle and boundary claims ================== -/

/-- C5: with the library initialized and `length = 0`, `vulpes_extract_text`
returns an empty text (length 0) with error code OK — not INVALID_ARGUMENT. -/
theorem c5_empty_input_ok (html : Option (List Char)) :
    vulpes_extract_text LibraryState.INITIALIZED html 0 =
      ⟨some [], 0, VULPES_OK⟩ ∧
    (vulpes_extract_text LibraryState.INITIALIZED html 0).error_code ≠
      VULPES_ERROR_INVALID_ARGUMENT := by
  constructor
  · simp [vulpes_extract_text]
  · simp [vulpes_extract_text, VULPES_OK, VULPES_ERROR_INVALID_ARGUMENT]

/-- C6: a null html pointer with non-zero length yields error code
INVALID_ARGUMENT with no text buffer (no partial result). -/
theorem c6_null_nonzero_invalid (len : Nat) (h : len ≠ 0) :
    vulpes_extract_text LibraryState.INITIALIZED none len =
      ⟨none, 0, VULPES_ERROR_INVALID_ARGUMENT⟩ := by
  simp [vulpes_extract_text, h]

theorem c6_null_nonzero_invalid_witness :
    (7 : Nat) ≠ 0 ∧
    vulpes_extract_text LibraryState.INITIALIZED none 7 =
      ⟨none, 0, VULPES_ERROR_INVALID_ARGUMENT⟩ :=
  ⟨by decide, c6_null_nonzero_invalid 7 (by decide)⟩

/-- C7: any extraction call outside the INITIALIZED state fails with
NOT_INITIALIZED (and allocates no text buffer). -/
theorem c7_not_initialized (st : LibraryState) (html : Option (List Char))
    (len : Nat) (h : st ≠ LibraryState.INITIALIZED) :
    (vulpes_extract_text st html len).error_code =
      VULPES_ERROR_NOT_INITIALIZED ∧
    (vulpes_extract_text st html len).text = none := by
  simp [vulpes_extract_text, h]

theorem c7_not_initialized_witness :
    LibraryState.UNINITIALIZED ≠ LibraryState.INITIALIZED ∧
    ((vulpes_extract_text LibraryState.UNINITIALIZED
        (some ('h' :: ['i'])) 2).error_code = VULPES_ERROR_NOT_INITIALIZED ∧
     (vulpes_extract_text LibraryState.UNINITIALIZED
        (some ('h' :: ['i'])) 2).text = none) :=
  ⟨by decide,
   c7_not_initialized LibraryState.UNINITIALIZED (some ('h' :: ['i'])) 2
     (by decide)⟩

/-- C8: `vulpes_init` transitions to INITIALIZED and is idempotent: every
call returns OK (never ALREADY_INITIALIZED), a call while INITIALIZED is a
no-op, and the state after two calls equals the state after one. -/
theorem c8_init_idempotent :
    (vulpes_init LibraryState.UNINITIALIZED).1 = LibraryState.INITIALIZED ∧
    (∀ s : LibraryState, vulpes_init (vulpes_init s).1 = vulpes_init s) ∧
    (vulpes_init LibraryState.INITIALIZED).2 = VULPES_OK ∧
    (vulpes_init LibraryState.INITIALIZED).2 ≠
      VULPES_ERROR_ALREADY_INITIALIZED :=
  ⟨rfl, fun _ => rfl, rfl, by decide⟩

/-- C9: extraction is deterministic — the same input bytes and length under
the same library state produce identical output text and error code. -/
theorem c9_deterministic (st : LibraryState) (h1 h2 : Option (List Char))
    (l1 l2 : Nat) (hh : h1 = h2) (hl : l1 = l2) :
    (vulpes_extract_text st h1 l1).text = (vulpes_extract_text st h2 l2).text ∧
    (vulpes_extract_text st h1 l1).error_code =
      (vulpes_extract_text st h2 l2).error_code := by
  subst hh
  subst hl
  exact ⟨rfl, rfl⟩

theorem c9_deterministic_witness :
    (some ('h' :: ['i']) : Option (List Char)) = some ('h' :: ['i']) ∧
    (2 : Nat) = 2 ∧
    ((vulpes_extract_text LibraryState.INITIALIZED (some ('h' :: ['i'])) 2).text =
       (vulpes_extract_text LibraryState.INITIALIZED (some ('h' :: ['i'])) 2).text ∧
     (vulpes_extract_text LibraryState.INITIALIZED (some ('h' :: ['i'])) 2).error_code =
       (vulpes_extract_text LibraryState.INITIALIZED (some ('h' :: ['i'])) 2).error_code) :=
  ⟨rfl, rfl,
   c9_deterministic LibraryState.INITIALIZED (some ('h' :: ['i']))
     (some ('h' :: ['i'])) 2 2 rfl rfl⟩

/-- C10: `vulpes_version` is state-independent — callable before init and
after deinit with the same non-empty version string, never an error. -/
theorem c10_version_any_state :
    (∀ s : LibraryState, vulpes_version s = "0.1.0-dev") ∧
    (∀ s t : LibraryState, vulpes_version s = vulpes_version t) ∧
    vulpes_version (vulpes_deinit LibraryState.INITIALIZED) = "0.1.0-dev" ∧
    vulpes_version LibraryState.UNINITIALIZED = "0.1.0-dev" ∧
    (∀ s : LibraryState, (vulpes_version s).length ≠ 0) := by
  refine ⟨fun _ => rfl, fun _ _ => rfl, rfl, rfl, fun _ => ?_⟩
  show ¬ ("0.1.0-dev".length = 0)
  decide

/- ==================== Whitespace normalizer lemmas ==================== -/

theorem wsChain_cons (a : Char) (l : List Char) :
    wsChain (a :: l) =
      ((match l.head? with
        | some b => !(isWS a && isWS b)
        | none => true) && wsChain l) := by
  cases l <;> simp [wsChain]

theorem lastOK_cons (a : Char) (l : List Char) :
    lastOK (a :: l) = (if l = [] then !isWS a else lastOK l) := by
  cases l <;> simp [lastOK]

theorem lastOK_append (l m : List Char) (h : m ≠ []) :
    lastOK (l ++ m) = lastOK m := by
  induction l with
  | nil => rfl
  | cons a l ih =>
    rw [List.cons_append, lastOK_cons, ih]
    have : l ++ m ≠ [] := by simp [h]
    simp [this]

theorem flushP_shape (p : Pending) : flushP p = [] ∨ ∃ w,
    flushP p = [w] ∧ isWS w = true := by
  match p with
  | Pending.lead => left; rfl
  | Pending.word => left; rfl
  | Pending.space => right; exact ⟨' ', rfl, by decide⟩
  | Pending.brk => right; exact ⟨'\n', rfl, by decide⟩

/-- The normalizer invariant: its output never has two adjacent whitespace
characters, never ends in whitespace, and (when started from the leading
state) never begins with whitespace. -/
theorem normAux_invariant (ts : List Item) :
    ∀ p : Pending,
      wsChain (normAux ts p) = true ∧
      lastOK (normAux ts p) = true ∧
      (p = Pending.lead →
        ∀ c, (normAux ts p).head? = some c → isWS c = false) := by
  induction ts with
  | nil =>
    intro p
    refine ⟨rfl, rfl, ?_⟩
    intro _ c hc
    simp [normAux] at hc
  | cons t ts ih =>
    intro p
    match t with
    | Item.sep =>
      have h := ih (if p = Pending.lead then Pending.lead else Pending.brk)
      refine ⟨h.1, h.2.1, ?_⟩
      intro hp c hc
      subst hp
      simp only [normAux] at hc
      exact (ih Pending.lead).2.2 rfl c (by simpa using hc)
    | Item.chr c =>
      by_cases hws : isWS c = true
      · have h := ih (if p = Pending.lead then Pending.lead
                      else if p = Pending.brk then Pending.brk
                      else Pending.space)
        refine ⟨?_, ?_, ?_⟩
        · simpa [normAux, hws] using h.1
        · simpa [normAux, hws] using h.2.1
        · intro hp d hd
          rw [hp] at hd
          simp only [normAux, hws, if_true, reduceIte] at hd
          exact (ih Pending.lead).2.2 rfl d (by simpa using hd)
      · have h := ih Pending.word
        have hout : normAux (Item.chr c :: ts) p =
            flushP p ++ c :: normAux ts Pending.word := by
          simp [normAux, hws]
        refine ⟨?_, ?_, ?_⟩
        · rw [hout]
          have hws' : isWS c = false := eq_false_of_ne_true hws
          rcases flushP_shape p with hf | ⟨w, hf, hw⟩
          · rw [hf, List.nil_append, wsChain_cons]
            cases hh : (normAux ts Pending.word).head? <;>
              simp [hws', h.1, hh]
          · rw [hf, List.singleton_append, wsChain_cons]
            simp only [List.head?_cons]
            rw [wsChain_cons]
            cases hh : (normAux ts Pending.word).head? <;>
              simp [hws', h.1, hh, hw]
        · rw [hout, lastOK_append _ _ (by simp), lastOK_cons]
          cases hns : normAux ts Pending.word with
          | nil => simp [hws]
          | cons d m => simpa [hns] using h.2.1
        · intro hp d hd
          rw [hout, hp] at hd
          simp only [flushP, List.nil_append, List.head?_cons] at hd
          cases hd
          exact eq_false_of_ne_true hws

theorem wsChain_noTwoSpaces (l : List Char) (h : wsChain l = true) :
    noTwoSpaces l = true := by
  induction l with
  | nil => rfl
  | cons a l ih =>
    cases l with
    | nil => rfl
    | cons b m =>
      rw [wsChain] at h
      rw [noTwoSpaces]
      simp only [Bool.and_eq_true, Bool.not_eq_true'] at h ⊢
      refine ⟨?_, ih h.2⟩
      simp only [Bool.and_eq_false_iff] at h ⊢
      rcases h.1 with h1 | h1
      · left
        simp only [decide_eq_false_iff_not]
        intro hab
        subst hab
        simp [isWS] at h1
      · right
        simp only [decide_eq_false_iff_not]
        intro hab
        subst hab
        simp [isWS] at h1

theorem lastOK_getLast (l : List Char) (h : lastOK l = true) :
    ∀ c, l.getLast? = some c → isWS c = false := by
  induction l with
  | nil => simp
  | cons a l ih =>
    cases l with
    | nil =>
      intro c hc
      simp only [List.getLast?_singleton, Option.some.injEq] at hc
      subst hc
      simpa [lastOK, Bool.not_eq_true'] using h
    | cons b m =>
      intro c hc
      rw [List.getLast?_cons_cons] at hc
      exact ih (by simpa [lastOK_cons] using h) c hc

/-- C2: extracted text never contains two consecutive spaces and neither
begins nor ends with a space: whitespace runs collapse and the whole output
is trimmed. -/
theorem c2_whitespace_law (st : LibraryState) (html : Option (List Char))
    (len : Nat) (out : List Char)
    (h : (vulpes_extract_text st html len).text = some out) :
    noTwoSpaces out = true ∧ out.head? ≠ some ' ' ∧ out.getLast? ≠ some ' ' := by
  by_cases hst : st = LibraryState.INITIALIZED
  · subst hst
    by_cases hlen : len = 0
    · subst hlen
      simp [vulpes_extract_text] at h
      subst h
      exact ⟨rfl, by simp, by simp⟩
    · match html with
      | none => simp [vulpes_extract_text, hlen] at h
      | some buf =>
        have hout : out = extractText (buf.take len) := by
          simp [vulpes_extract_text, hlen] at h
          exact h.symm
        subst hout
        have hinv := normAux_invariant (emit (tokenize (buf.take len)) [])
          Pending.lead
        refine ⟨wsChain_noTwoSpaces _ hinv.1, ?_, ?_⟩
        · intro hh
          have := hinv.2.2 rfl ' ' hh
          simp [isWS] at this
        · intro hh
          have := lastOK_getLast _ hinv.2.1 ' ' hh
          simp [isWS] at this
  · simp [vulpes_extract_text, hst] at h

theorem c2_whitespace_law_witness :
    (vulpes_extract_text LibraryState.INITIALIZED
       (some (' ' :: 'a' :: [' '])) 3).text = some ('a' :: []) ∧
    (noTwoSpaces ('a' :: []) = true ∧
     ('a' :: []).head? ≠ some ' ' ∧ ('a' :: []).getLast? ≠ some ' ') :=
  ⟨by decide,
   c2_whitespace_law LibraryState.INITIALIZED (some (' ' :: 'a' :: [' '])) 3
     ('a' :: []) (by decide)⟩

/- ================= Character-class and scan lemmas ================= -/

theorem isWS_not_nameChar (c : Char) (h : isWS c = true) :
    isNameChar c = false := by
  simp only [isWS, Bool.or_eq_true, decide_eq_true_eq] at h
  rcases h with ((((((((h|h)|h)|h)|h)|h)|h)|h)|h) <;> subst h <;> decide

theorem nameChar_not_WS (c : Char) (h : isNameChar c = true) :
    isWS c = false := by
  by_contra hc
  have := isWS_not_nameChar c (by simpa using Bool.of_not_eq_false hc)
  rw [this] at h
  exact Bool.false_ne_true h

theorem nameChar_ne_hash (c : Char) (h : isNameChar c = true) : c ≠ '#' := by
  intro hc
  subst hc
  exact absurd h (by decide)

theorem toLower_eq_self (c : Char) (h : (c.isLower || c.isDigit) = true) :
    c.toLower = c := by
  unfold Char.toLower
  have hn : ¬(c.toNat ≥ 65 ∧ c.toNat ≤ 90) := by
    simp only [Char.isLower, Char.isDigit, Bool.or_eq_true,
      Bool.and_eq_true, decide_eq_true_eq] at h
    have hv : c.toNat = c.val.toNat := rfl
    rcases h with ⟨h1, h2⟩ | ⟨h1, h2⟩
    · have h1' : (97 : UInt32).toNat ≤ c.val.toNat := h1
      have h2' : c.val.toNat ≤ (122 : UInt32).toNat := h2
      have e1 : (97 : UInt32).toNat = 97 := rfl
      have e2 : (122 : UInt32).toNat = 122 := rfl
      omega
    · have h1' : (48 : UInt32).toNat ≤ c.val.toNat := h1
      have h2' : c.val.toNat ≤ (57 : UInt32).toNat := h2
      have e1 : (48 : UInt32).toNat = 48 := rfl
      have e2 : (57 : UInt32).toNat = 57 := rfl
      omega
  simp [hn]

theorem takeWhile_all_append (p : Char → Bool) (l m : List Char)
    (hl : ∀ c ∈ l, p c = true) (hm : ∀ c, m.head? = some c → p c = false) :
    (l ++ m).takeWhile p = l ∧ (l ++ m).dropWhile p = m := by
  induction l with
  | nil =>
    simp only [List.nil_append]
    cases m with
    | nil => simp
    | cons c m' =>
      have := hm c rfl
      simp [List.takeWhile_cons, List.dropWhile_cons, this]
  | cons a l ih =>
    have ha := hl a (by simp)
    have ih' := ih (fun c hc => hl c (by simp [hc]))
    simp [List.takeWhile_cons, List.dropWhile_cons, ha, ih'.1, ih'.2]

/- ===================== Lexer step characterization ===================== -/

theorem refStep_named (cs rest : List Char) (h1 : cs ≠ [])
    (h2 : ∀ c ∈ cs, isNameChar c = true) :
    refStep (cs ++ ';' :: rest) =
      ([Token.namedRef (String.mk cs) true], rest) := by
  match cs, h1 with
  | c :: cs', _ =>
    have hc := h2 c (by simp)
    have hsplit := takeWhile_all_append isNameChar (c :: cs') (';' :: rest)
      h2 (by intro d hd; cases hd; decide)
    have hhash : ¬ c = '#' := nameChar_ne_hash c hc
    rw [List.cons_append] at hsplit ⊢
    rw [show refStep (c :: (cs' ++ ';' :: rest)) =
          (if c = '#' then
            (match cs' ++ ';' :: rest with
             | [] => ([Token.chr '&', Token.chr '#'], [])
             | x :: r2 =>
               if x = 'x' || x = 'X' then
                 if r2.takeWhile isHexDigit = [] then
                   ([Token.chr '&', Token.chr '#', Token.chr x], r2)
                 else
                   ([Token.numRef (hexVal (r2.takeWhile isHexDigit))],
                    dropSemi (r2.dropWhile isHexDigit))
               else
                 if (cs' ++ ';' :: rest).takeWhile Char.isDigit = [] then
                   ([Token.chr '&', Token.chr '#'], cs' ++ ';' :: rest)
                 else
                   ([Token.numRef (decVal ((cs' ++ ';' :: rest).takeWhile Char.isDigit))],
                    dropSemi ((cs' ++ ';' :: rest).dropWhile Char.isDigit)))
           else
             if (c :: (cs' ++ ';' :: rest)).takeWhile isNameChar = [] then
               ([Token.chr '&'], c :: (cs' ++ ';' :: rest))
             else
               if ((c :: (cs' ++ ';' :: rest)).dropWhile isNameChar).head? = some ';' then
                 ([Token.namedRef
                     (String.mk ((c :: (cs' ++ ';' :: rest)).takeWhile isNameChar)) true],
                  ((c :: (cs' ++ ';' :: rest)).dropWhile isNameChar).tail)
               else
                 ([Token.namedRef
                     (String.mk ((c :: (cs' ++ ';' :: rest)).takeWhile isNameChar)) false],
                  (c :: (cs' ++ ';' :: rest)).dropWhile isNameChar)) from rfl]
    rw [hsplit.1, hsplit.2]
    simp [hhash]

theorem tagStep_start (cs rest : List Char) (hne : cs ≠ [])
    (hhead : ∀ c, cs.head? = some c → c.isAlpha = true)
    (hall : ∀ c ∈ cs, isNameChar c = true) :
    tagStep (cs ++ '>' :: rest) =
      ([Token.startTag (foldName cs)], rest) := by
  match cs, hne with
  | c :: cs', _ =>
    have hc := hhead c rfl
    have hsplit := takeWhile_all_append isNameChar (c :: cs') ('>' :: rest)
      hall (by intro d hd; cases hd; decide)
    have h1 : ¬ c = '!' := by intro h; subst h; exact absurd hc (by decide)
    have h2 : ¬ c = '/' := by intro h; subst h; exact absurd hc (by decide)
    rw [List.cons_append] at hsplit ⊢
    simp only [tagStep]
    rw [hsplit.1, hsplit.2]
    simp [h1, h2, hc, skipToGt, skipTagAux]

theorem tagStep_end (cs rest : List Char) (hne : cs ≠ [])
    (hall : ∀ c ∈ cs, isNameChar c = true) :
    tagStep ('/' :: (cs ++ '>' :: rest)) =
      ([Token.endTag (foldName cs)], rest) := by
  have hsplit := takeWhile_all_append isNameChar cs ('>' :: rest)
    hall (by intro d hd; cases hd; decide)
  simp only [tagStep]
  rw [hsplit.1, hsplit.2]
  simp [hne, skipToGt, skipTagAux]

/- =================== Visible-fragment and norm lemmas =================== -/

theorem emit_chrs (l : List Char) (ts : List Token) (stack : List String)
    (h : suppressed stack = false) :
    emit (l.map Token.chr ++ ts) stack = l.map Item.chr ++ emit ts stack := by
  induction l with
  | nil => simp
  | cons c l ih => simp [emit, h, ih]

theorem normAux_chrs (l : List Char) (h : ∀ c ∈ l, isWS c = false) :
    ∀ p : Pending, p = Pending.lead ∨ p = Pending.word →
      normAux (l.map Item.chr) p = l := by
  induction l with
  | nil => intro p _; rfl
  | cons c l ih =>
    intro p hp
    have hc := h c (by simp)
    have hrest := ih (fun d hd => h d (by simp [hd])) Pending.word (Or.inr rfl)
    rcases hp with hp | hp <;> subst hp <;>
      simp [normAux, hc, flushP, hrest]

/-- C3: a visible character reference whose name is not in the named-entity
table is preserved literally in the output, ampersand included. -/
theorem c3_unknown_entity_literal (cs : List Char) (h1 : cs ≠ [])
    (h2 : ∀ c ∈ cs, isNameChar c = true)
    (h3 : lookupEntity (String.mk cs) = none) :
    extractText ('&' :: (cs ++ [';'])) = '&' :: (cs ++ [';']) := by
  have href : refStep (cs ++ [';']) = ([Token.namedRef (String.mk cs) true], []) := by
    have := refStep_named cs [] h1 h2
    simpa using this
  have htok : tokenize ('&' :: (cs ++ [';'])) =
      [Token.namedRef (String.mk cs) true] := by
    rw [tokenize_amp, href]
    simp [tokenize_nil]
  have hemit : emit [Token.namedRef (String.mk cs) true] [] =
      ('&' :: (cs ++ [';'])).map Item.chr := by
    simp [emit, suppressed, decodeRef, h3]
  have hws : ∀ c ∈ '&' :: (cs ++ [';']), isWS c = false := by
    intro c hc
    rcases List.mem_cons.mp hc with hc | hc
    · subst hc; decide
    · rcases List.mem_append.mp hc with hc | hc
      · exact nameChar_not_WS c (h2 c hc)
      · simp at hc; subst hc; decide
  rw [extractText, htok, hemit,
      normAux_chrs _ hws Pending.lead (Or.inl rfl)]

theorem c3_unknown_entity_literal_witness :
    ('f' :: 'o' :: ['o'] : List Char) ≠ [] ∧
    (∀ c ∈ ('f' :: 'o' :: ['o'] : List Char), isNameChar c = true) ∧
    lookupEntity (String.mk ('f' :: 'o' :: ['o'])) = none ∧
    extractText ('&' :: (('f' :: 'o' :: ['o']) ++ [';'])) =
      '&' :: (('f' :: 'o' :: ['o']) ++ [';']) :=
  ⟨by decide, by decide, by decide,
   c3_unknown_entity_literal ('f' :: 'o' :: ['o']) (by decide) (by decide)
     (by decide)⟩

/-- C4: an unclosed tag — a start tag whose element is never closed — followed
by visible text still yields that text up to end-of-input, with error code OK:
malformed markup is recovered, never reported as a failure. -/
theorem c4_unclosed_tag (nm text : List Char) (hne : nm ≠ [])
    (hhead : ∀ c, nm.head? = some c → c.isAlpha = true)
    (hall : ∀ c ∈ nm, isNameChar c = true)
    (hsup : suppressed [foldName nm] = false)
    (htext : ∀ c ∈ text, isWS c = false ∧ c ≠ '<' ∧ c ≠ '&') :
    vulpes_extract_text LibraryState.INITIALIZED
        (some ('<' :: (nm ++ ('>' :: text))))
        ('<' :: (nm ++ ('>' :: text))).length =
      ⟨some text, text.length, VULPES_OK⟩ := by
  have hlen : ('<' :: (nm ++ ('>' :: text))).length ≠ 0 := by simp
  have htok : tokenize ('<' :: (nm ++ ('>' :: text))) =
      Token.startTag (foldName nm) :: text.map Token.chr := by
    rw [tokenize_lt, tagStep_start nm text hne hhead hall]
    have : text = text ++ [] := by simp
    rw [List.singleton_append]
    congr 1
    rw [this, tokenize_chrs text [] (fun c hc => (htext c (by simpa using hc)).2)]
    simp [tokenize_nil]
  have hsup' : suppressed (pushTag (foldName nm) []) = false := by
    unfold pushTag
    split
    · rfl
    · exact hsup
  have hitems : emit (tokenize ('<' :: (nm ++ ('>' :: text)))) [] =
      (if blockSet.contains (foldName nm) && !suppressed (pushTag (foldName nm) [])
       then [Item.sep] else []) ++ text.map Item.chr := by
    rw [htok]
    simp only [emit]
    congr 1
    have : text.map Token.chr = text.map Token.chr ++ [] := by simp
    rw [this, emit_chrs text [] _ hsup']
    simp [emit]
  have hnorm : normAux ((if blockSet.contains (foldName nm) &&
        !suppressed (pushTag (foldName nm) [])
       then [Item.sep] else []) ++ text.map Item.chr) Pending.lead = text := by
    by_cases hb : (blockSet.contains (foldName nm) &&
        !suppressed (pushTag (foldName nm) [])) = true
    · rw [if_pos hb, List.singleton_append]
      show normAux (Item.sep :: text.map Item.chr) Pending.lead = text
      simp only [normAux, reduceIte]
      exact normAux_chrs text (fun c hc => (htext c hc).1) Pending.lead
        (Or.inl rfl)
    · rw [if_neg hb, List.nil_append]
      exact normAux_chrs text (fun c hc => (htext c hc).1) Pending.lead
        (Or.inl rfl)
  simp only [vulpes_extract_text, hlen, reduceIte, if_false, ne_eq,
    not_true_eq_false, List.take_length]
  rw [extractText, hitems, hnorm]

theorem c4_unclosed_tag_witness :
    ('d' :: 'i' :: ['v'] : List Char) ≠ [] ∧
    vulpes_extract_text LibraryState.INITIALIZED
        (some ('<' :: (('d' :: 'i' :: ['v']) ++ ('>' :: ('h' :: ['i'])))))
        ('<' :: (('d' :: 'i' :: ['v']) ++ ('>' :: ('h' :: ['i'])))).length =
      ⟨some ('h' :: ['i']), ('h' :: ['i'] : List Char).length, VULPES_OK⟩ :=
  ⟨by decide,
   c4_unclosed_tag ('d' :: 'i' :: ['v']) ('h' :: ['i']) (by decide)
     (by decide) (by decide) (by decide) (by decide)⟩

/- ==================== Well-formed forest lemmas ==================== -/

theorem wfName_parts (nm : String) (h : wfName nm = true) :
    nm.data ≠ [] ∧ (∀ c, nm.data.head? = some c → c.isAlpha = true) ∧
    (∀ c ∈ nm.data, isNameChar c = true) ∧ foldName nm.data = nm := by
  cases hd : nm.data with
  | nil => unfold wfName at h; rw [hd] at h; simp at h
  | cons c cs =>
    unfold wfName at h
    rw [hd] at h
    simp only [Bool.and_eq_true, List.all_eq_true] at h
    obtain ⟨h1, h2⟩ := h
    have hgood : ∀ d ∈ c :: cs, (d.isLower || d.isDigit) = true := by
      intro d hdm
      rcases List.mem_cons.mp hdm with rfl | hdm
      · simp [h1]
      · have := h2 d hdm
        simpa [goodNameChar] using this
    refine ⟨by simp, ?_, ?_, ?_⟩
    · intro d hdd
      simp only [List.head?_cons, Option.some.injEq] at hdd
      subst hdd
      simp [Char.isAlpha, h1]
    · intro d hdm
      have := hgood d hdm
      simp only [Bool.or_eq_true] at this
      rcases this with hh | hh <;> simp [isNameChar, Char.isAlpha, hh]
    · have hmap : (c :: cs).map Char.toLower = (c :: cs).map id :=
        List.map_congr_left (fun d hdm => toLower_eq_self d (hgood d hdm))
      rw [foldName, hmap, List.map_id, ← hd]

theorem popTo_cons_self (nm : String) (stack : List String) :
    popTo nm (nm :: stack) = stack := by
  have : (nm :: stack).contains nm = true := by simp
  simp [popTo, this, dropUntilAfter]

theorem emit_chrs_sup (l : List Char) (ts : List Token) (stack : List String)
    (h : suppressed stack = true) :
    emit (l.map Token.chr ++ ts) stack = emit ts stack := by
  induction l with
  | nil => simp
  | cons c l ih => simp [emit, h, ih]

theorem suppressed_cons_of (nm : String) (stack : List String)
    (h : suppressed stack = true) : suppressed (nm :: stack) = true := by
  simp only [suppressed, List.any_cons, Bool.or_eq_true] at h ⊢
  exact Or.inr h

theorem suppressed_cons_mem (nm : String) (stack : List String)
    (h : suppressedSet.contains nm = true) :
    suppressed (nm :: stack) = true := by
  simp only [suppressed, List.any_cons, Bool.or_eq_true]
  exact Or.inl h

theorem string_eta (s : String) : String.mk s.data = s := rfl

/-- The Lexer is faithful on well-formed markup: tokenizing the rendering of a
well-formed forest (followed by anything) produces exactly its token sequence
followed by the tokens of the remainder. -/
theorem tokenize_renderF (f : List Node) :
    wfF f = true →
    ∀ rest : List Char,
      tokenize (renderF f ++ rest) = tokensF f ++ tokenize rest := by
  induction f using renderF.induct with
  | case1 =>
    intro _ rest
    simp [renderF, tokensF]
  | case2 s r ih =>
    intro hwf rest
    simp only [wfF, Bool.and_eq_true, List.all_eq_true] at hwf
    obtain ⟨hs, hr⟩ := hwf
    simp only [renderF, tokensF, List.append_assoc]
    rw [tokenize_chrs s (renderF r ++ rest) ?_, ih hr rest]
    intro c hc
    have := hs c hc
    simp only [goodTextChar, Bool.and_eq_true, decide_eq_true_eq] at this
    exact ⟨this.1.1, this.2⟩
  | case3 nm r ih =>
    intro hwf rest
    simp only [wfF, Bool.and_eq_true, List.all_eq_true] at hwf
    obtain ⟨⟨h1a, h1b⟩, hr⟩ := hwf
    have hne : nm.data ≠ [] := by
      rcases hd : nm.data with _ | ⟨c, cs⟩
      · rw [hd] at h1a; simp at h1a
      · simp
    have hall : ∀ c ∈ nm.data, isNameChar c = true := h1b
    simp only [renderF, tokensF, List.cons_append, List.append_assoc]
    rw [tokenize_amp, refStep_named nm.data (renderF r ++ rest) hne hall,
        string_eta, List.singleton_append, ih hr rest]
  | case4 nm cs r ihcs ihr =>
    intro hwf rest
    simp only [wfF, Bool.and_eq_true] at hwf
    obtain ⟨⟨⟨hnm, hnv⟩, hcs⟩, hr⟩ := hwf
    obtain ⟨hne, hhead, hall, hfold⟩ := wfName_parts nm hnm
    simp only [renderF, tokensF, List.cons_append, List.append_assoc]
    rw [tokenize_lt,
        tagStep_start nm.data _ hne hhead hall, hfold, List.singleton_append,
        ihcs hcs, tokenize_lt,
        tagStep_end nm.data (renderF r ++ rest) hne hall, hfold,
        List.singleton_append, ihr hr rest]

/-- The Visibility Tracker is faithful on well-nested markup: processing a
well-formed forest's tokens under any ambient stack contributes exactly its
fragment stream and restores the stack for what follows. -/
theorem emit_tokensF (f : List Node) :
    wfF f = true →
    ∀ (ts : List Token) (stack : List String),
      emit (tokensF f ++ ts) stack = itemsF stack f ++ emit ts stack := by
  induction f using tokensF.induct with
  | case1 =>
    intro _ ts stack
    simp [tokensF, itemsF]
  | case2 s r ih =>
    intro hwf ts stack
    simp only [wfF, Bool.and_eq_true, List.all_eq_true] at hwf
    obtain ⟨hs, hr⟩ := hwf
    simp only [tokensF, itemsF, List.append_assoc]
    by_cases hsup : suppressed stack = true
    · rw [emit_chrs_sup s _ stack hsup, ih hr ts stack, if_pos hsup,
          List.nil_append]
    · have hsup' : suppressed stack = false := eq_false_of_ne_true hsup
      rw [emit_chrs s _ stack hsup', ih hr ts stack, if_neg hsup]
  | case3 nm r ih =>
    intro hwf ts stack
    simp only [wfF, Bool.and_eq_true, List.all_eq_true] at hwf
    obtain ⟨h1, hr⟩ := hwf
    simp only [tokensF, itemsF, List.cons_append, emit]
    rw [ih hr ts stack]
    by_cases hsup : suppressed stack = true
    · simp [hsup]
    · have hsup' : suppressed stack = false := eq_false_of_ne_true hsup
      simp [hsup']
  | case4 nm cs r ihcs ihr =>
    intro hwf ts stack
    simp only [wfF, Bool.and_eq_true] at hwf
    obtain ⟨⟨⟨hnm, hnv⟩, hcs⟩, hr⟩ := hwf
    have hpush : pushTag nm stack = nm :: stack := by
      have hnv' : nm ∉ voidSet := by
        simp only [Bool.not_eq_true'] at hnv
        simpa using hnv
      simp [pushTag, hnv']
    simp only [tokensF, itemsF, List.cons_append, emit, hpush]
    rw [List.append_assoc, ihcs hcs _ (nm :: stack), List.cons_append, emit,
        popTo_cons_self, ihr hr ts stack]
    simp [List.append_assoc]

/-- Fragments never escape a suppressed context. -/
theorem itemsF_suppressed (f : List Node) :
    ∀ stack, suppressed stack = true → itemsF stack f = [] := by
  induction f using renderF.induct with
  | case1 => intro stack _; simp [itemsF]
  | case2 s r ih =>
    intro stack hsup
    simp [itemsF, hsup, ih stack hsup]
  | case3 nm r ih =>
    intro stack hsup
    simp [itemsF, hsup, ih stack hsup]
  | case4 nm cs r ihcs ihr =>
    intro stack hsup
    have hsup' := suppressed_cons_of nm stack hsup
    simp [itemsF, hsup, hsup', ihcs _ hsup', ihr stack hsup]

/-- Emptying every suppressed element leaves the fragment stream unchanged:
suppressed content contributes nothing, at any nesting depth. -/
theorem itemsF_pruneF (f : List Node) :
    ∀ stack, itemsF stack (pruneF f) = itemsF stack f := by
  induction f using renderF.induct with
  | case1 => intro stack; simp [pruneF]
  | case2 s r ih =>
    intro stack
    simp [pruneF, itemsF, ih stack]
  | case3 nm r ih =>
    intro stack
    simp [pruneF, itemsF, ih stack]
  | case4 nm cs r ihcs ihr =>
    intro stack
    by_cases hmem : suppressedSet.contains nm = true
    · have hsup' := suppressed_cons_mem nm stack hmem
      simp only [pruneF, hmem, if_pos, itemsF, ihr stack,
        itemsF_suppressed cs _ hsup']
    · have hmem' : suppressedSet.contains nm = false := eq_false_of_ne_true hmem
      simp only [pruneF, hmem', Bool.false_eq_true, if_false, itemsF,
        ihcs (nm :: stack), ihr stack]

/-- Pruning preserves well-formedness. -/
theorem wfF_pruneF (f : List Node) (h : wfF f = true) :
    wfF (pruneF f) = true := by
  induction f using renderF.induct with
  | case1 => simpa [pruneF] using h
  | case2 s r ih =>
    simp only [wfF, Bool.and_eq_true] at h
    simp [pruneF, wfF, h.1, ih h.2]
  | case3 nm r ih =>
    simp only [wfF, Bool.and_eq_true] at h
    simp only [pruneF, wfF, Bool.and_eq_true]
    exact ⟨h.1, ih h.2⟩
  | case4 nm cs r ihcs ihr =>
    simp only [wfF, Bool.and_eq_true] at h
    obtain ⟨⟨⟨hnm, hnv⟩, hcs⟩, hr⟩ := h
    have hnv' : nm ∉ voidSet := by
      simp only [Bool.not_eq_true'] at hnv
      simpa using hnv
    by_cases hmem2 : nm ∈ suppressedSet
    · simp [pruneF, hmem2, wfF, hnm, hnv', ihr hr]
    · simp [pruneF, hmem2, wfF, hnm, hnv', ihcs hcs, ihr hr]

/-- No `<` or `>` fragment arises from a well-formed forest whose references
decode away from the tag delimiters. -/
theorem itemsF_no_angle (f : List Node) :
    wfF f = true → noAngleRefs f = true →
    ∀ stack, Item.chr '<' ∉ itemsF stack f ∧ Item.chr '>' ∉ itemsF stack f := by
  induction f using renderF.induct with
  | case1 => intro _ _ stack; simp [itemsF]
  | case2 s r ih =>
    intro hwf hna stack
    simp only [wfF, Bool.and_eq_true, List.all_eq_true] at hwf
    simp only [noAngleRefs] at hna
    have ihr := ih hwf.2 hna stack
    have hch : ∀ c ∈ s, Item.chr c ≠ Item.chr '<' ∧ Item.chr c ≠ Item.chr '>' := by
      intro c hc
      have := hwf.1 c hc
      simp only [goodTextChar, Bool.and_eq_true, decide_eq_true_eq] at this
      constructor <;> intro he <;> cases he
      · exact this.1.1 rfl
      · exact this.1.2 rfl
    constructor <;> simp only [itemsF, List.mem_append, not_or] <;>
      refine ⟨?_, ?_⟩
    · intro hmem
      split at hmem
      · simp at hmem
      · rcases List.mem_map.mp hmem with ⟨c, hc, he⟩
        exact (hch c hc).1 he
    · exact ihr.1
    · intro hmem
      split at hmem
      · simp at hmem
      · rcases List.mem_map.mp hmem with ⟨c, hc, he⟩
        exact (hch c hc).2 he
    · exact ihr.2
  | case3 nm r ih =>
    intro hwf hna stack
    simp only [wfF, Bool.and_eq_true, List.all_eq_true] at hwf
    simp only [noAngleRefs, Bool.and_eq_true] at hna
    have ihr := ih hwf.2 hna.2 stack
    have hch : ∀ c ∈ decodeRef nm true,
        Item.chr c ≠ Item.chr '<' ∧ Item.chr c ≠ Item.chr '>' := by
      intro c hc
      have := hna.1
      simp only [refOK, List.all_eq_true] at this
      have h2 := this c hc
      simp only [Bool.and_eq_true, decide_eq_true_eq] at h2
      constructor <;> intro he <;> cases he
      · exact h2.1 rfl
      · exact h2.2 rfl
    constructor <;> simp only [itemsF, List.mem_append, not_or] <;>
      refine ⟨?_, ?_⟩
    · intro hmem
      split at hmem
      · simp at hmem
      · rcases List.mem_map.mp hmem with ⟨c, hc, he⟩
        exact (hch c hc).1 he
    · exact ihr.1
    · intro hmem
      split at hmem
      · simp at hmem
      · rcases List.mem_map.mp hmem with ⟨c, hc, he⟩
        exact (hch c hc).2 he
    · exact ihr.2
  | case4 nm cs r ihcs ihr =>
    intro hwf hna stack
    simp only [wfF, Bool.and_eq_true] at hwf
    obtain ⟨⟨⟨hnm, hnv⟩, hcs⟩, hr⟩ := hwf
    simp only [noAngleRefs, Bool.and_eq_true] at hna
    have ih1 := ihcs hcs hna.1 (nm :: stack)
    have ih2 := ihr hr hna.2 stack
    constructor <;>
      simp only [itemsF, List.mem_append, not_or] <;>
      refine ⟨?_, ?_, ?_, ?_⟩
    · intro hmem; split at hmem <;> simp at hmem
    · exact ih1.1
    · intro hmem; split at hmem <;> simp at hmem
    · exact ih2.1
    · intro hmem; split at hmem <;> simp at hmem
    · exact ih1.2
    · intro hmem; split at hmem <;> simp at hmem
    · exact ih2.2

/-- Every output character of the normalizer is a space, a line break, or one
of its input fragments. -/
theorem normAux_mem (ts : List Item) :
    ∀ (p : Pending) (c : Char), c ∈ normAux ts p →
      c = ' ' ∨ c = '\n' ∨ Item.chr c ∈ ts := by
  induction ts with
  | nil => intro p c hc; simp [normAux] at hc
  | cons t ts ih =>
    intro p c hc
    match t with
    | Item.sep =>
      simp only [normAux] at hc
      rcases ih _ c hc with h | h | h
      · exact Or.inl h
      · exact Or.inr (Or.inl h)
      · exact Or.inr (Or.inr (by simp [h]))
    | Item.chr d =>
      by_cases hws : isWS d = true
      · simp only [normAux, hws, if_true] at hc
        rcases ih _ c hc with h | h | h
        · exact Or.inl h
        · exact Or.inr (Or.inl h)
        · exact Or.inr (Or.inr (by simp [h]))
      · simp only [normAux, hws, Bool.false_eq_true, if_false] at hc
        rcases List.mem_append.mp hc with h | h
        · have h2 : c = ' ' ∨ c = '\n' := by
            cases p <;> simp [flushP] at h <;> simp [h]
          rcases h2 with h2 | h2
          · exact Or.inl h2
          · exact Or.inr (Or.inl h2)
        · rcases List.mem_cons.mp h with h | h
          · exact Or.inr (Or.inr (by simp [h]))
          · rcases ih _ c h with h2 | h2 | h2
            · exact Or.inl h2
            · exact Or.inr (Or.inl h2)
            · exact Or.inr (Or.inr (by simp [h2]))

/-- Extraction of a well-formed forest factors through its fragment stream. -/
theorem extractText_renderF (f : List Node) (hwf : wfF f = true) :
    extractText (renderF f) = normAux (itemsF [] f) Pending.lead := by
  have h1 : tokenize (renderF f) = tokensF f := by
    have := tokenize_renderF f hwf []
    simpa [tokenize_nil] using this
  have h2 : emit (tokensF f) [] = itemsF [] f := by
    have := emit_tokensF f hwf [] []
    simpa [emit] using this
  rw [extractText, h1, h2]

/-- C1 (amended): for every well-formed HTML input, emptying every suppressed
element leaves the extracted text unchanged — suppressed content contributes
nothing at any nesting depth — and, when additionally none of the input's
character references decodes to `<` or `>`, the extracted text contains no
literal `<` or `>`.  The suppression half is unconditional in the
well-formed input; only the no-tag-delimiter half carries the
reference proviso the counterexample forces. -/
theorem c1_amended_no_angle_and_suppression (f : List Node)
    (hwf : wfF f = true) :
    (noAngleRefs f = true →
      '<' ∉ extractText (renderF f) ∧ '>' ∉ extractText (renderF f)) ∧
    extractText (renderF f) = extractText (renderF (pruneF f)) := by
  have hx := extractText_renderF f hwf
  have hp := extractText_renderF (pruneF f) (wfF_pruneF f hwf)
  refine ⟨fun hna => ⟨?_, ?_⟩, ?_⟩
  · intro hm
    rw [hx] at hm
    rcases normAux_mem _ _ _ hm with h | h | h
    · exact absurd h (by decide)
    · exact absurd h (by decide)
    · exact (itemsF_no_angle f hwf hna []).1 h
  · intro hm
    rw [hx] at hm
    rcases normAux_mem _ _ _ hm with h | h | h
    · exact absurd h (by decide)
    · exact absurd h (by decide)
    · exact (itemsF_no_angle f hwf hna []).2 h
  · rw [hx, hp, itemsF_pruneF f []]

theorem c1_amended_no_angle_and_suppression_witness :
    wfF [Node.elem "p" [Node.ref "lt"],
         Node.elem "script" [Node.text ('x' :: [])]] = true ∧
    ((noAngleRefs [Node.elem "p" [Node.ref "lt"],
         Node.elem "script" [Node.text ('x' :: [])]] = true →
      '<' ∉ extractText (renderF [Node.elem "p" [Node.ref "lt"],
         Node.elem "script" [Node.text ('x' :: [])]]) ∧
      '>' ∉ extractText (renderF [Node.elem "p" [Node.ref "lt"],
         Node.elem "script" [Node.text ('x' :: [])]])) ∧
     extractText (renderF [Node.elem "p" [Node.ref "lt"],
         Node.elem "script" [Node.text ('x' :: [])]]) =
       extractText (renderF (pruneF [Node.elem "p" [Node.ref "lt"],
         Node.elem "script" [Node.text ('x' :: [])]]))) :=
  ⟨by simp [wfF, wfName, voidSet, isNameChar, goodNameChar, goodTextChar],
   c1_amended_no_angle_and_suppression
     [Node.elem "p" [Node.ref "lt"],
      Node.elem "script" [Node.text ('x' :: [])]]
     (by simp [wfF, wfName, voidSet, isNameChar, goodNameChar, goodTextChar])⟩

/-- C1 as stated is false on the model: the input `<p>&lt;</p>` is
well-formed, yet the extracted text is the single character `<` — a literal
tag delimiter produced by decoding the standard `lt` named reference, as the
spec's own entity round-trip law requires. -/
theorem c1_counterexample :
    wfF [Node.elem "p" [Node.ref "lt"]] = true ∧
    '<' ∈ extractText (renderF [Node.elem "p" [Node.ref "lt"]]) := by
  refine ⟨by simp [wfF, wfName, voidSet, isNameChar], ?_⟩
  have h : renderF [Node.elem "p" [Node.ref "lt"]] =
      '<' :: 'p' :: '>' :: '&' :: 'l' :: 't' :: ';' :: '<' :: '/' :: 'p' ::
        ['>'] := by
    simp [renderF]
  rw [h]
  decide
